import Mathlib

/-!
Verification of the fair max-min diversification core (`fmmdmwu_nyoom.py`):
the multiplicative-weights-update fractional solver `mult_weight_upd` and the
gamma-falloff driver `epsilon_falloff`.

The embedding works over exact rationals (the idealized real-number semantics
the spec describes).  The two spatial-index collaborators are not part of the
core source and are modelled from their spec contracts (sections 4.A, 4.B):
a weighted ball-sum query and a ball-count query, both with Euclidean balls.
Since all radii and coordinates are rational we compare squared distances.

`np.argpartition` (the per-color bottom-K selection) guarantees only that the
first `K` positions of its output hold indices of `K` smallest values; the
order of ties is unspecified.  The solver is therefore parametrized by a
selection function `sel`, and `SelSpec` captures exactly the documented
contract.  `selBottom` (sort by value, ties by ascending index, take `K`) is
one concrete executable instance, used for witnesses; `selAltTie` (ties by
descending index) is another, used to show tie behavior is not determined.
-/

namespace FDC

/-- Squared Euclidean distance between two rational feature vectors. -/
def dist2 {d : ℕ} (p q : Fin d → ℚ) : ℚ := ∑ i, (p i - q i) ^ 2

/-- Membership in the closed Euclidean ball of radius `r`: nonempty only for
nonnegative radii, and compared via squared distances to stay in `ℚ`. -/
def near {d : ℕ} (r : ℚ) (p q : Fin d → ℚ) : Prop := 0 ≤ r ∧ dist2 p q ≤ r ^ 2

instance {d : ℕ} (r : ℚ) (p q : Fin d → ℚ) : Decidable (near r p q) := by
  unfold near; exact inferInstance

/-- The input data and collaborators of one `mult_weight_upd` call:
the dataset (`features`, `colors`), the quota list `kis` (a Python dict,
hence distinct colors), the total count `k`, the gamma and epsilon
parameters, the selection behavior `sel` realized by `np.argpartition`, and
the stream `waits` of values drawn by `gen.integers(9, 29)`. -/
structure Ctx (N d : ℕ) where
  features : Fin N → Fin d → ℚ
  colors : Fin N → ℕ
  kis : List (ℕ × ℕ)
  k : ℕ
  gamma : ℚ
  eps : ℚ
  sel : (Fin N → ℚ) → Finset (Fin N) → ℕ → Finset (Fin N)
  waits : ℕ → ℤ

variable {N d : ℕ}

/-- Indices of a given color: `(color == colors).nonzero()[0]`. -/
def colorIdx (C : Ctx N d) (c : ℕ) : Finset (Fin N) :=
  Finset.univ.filter (fun i => C.colors i = c)

/-- Modelled from the spec: `WeightedTree.run_query(r, h)` (contract 4.A),
whose implementation is not under `src/`.  Entry `i` is the sum of `h j`
over all points `j` within Euclidean distance `r` of point `i`. -/
def wsums (C : Ctx N d) (r : ℚ) (h : Fin N → ℚ) : Fin N → ℚ :=
  fun i => ∑ j ∈ Finset.univ.filter (fun j => near r (C.features i) (C.features j)), h j

/-- Modelled from the spec: `BallTree.get_counts_in_range(Z, features, r)`
(contract 4.B), whose implementation is not under `src/`.  Counts how many
of the round's selected rows lie within distance `r` of point `i`. -/
def countsIn (C : Ctx N d) (r : ℚ) (S : List (Fin N)) (i : Fin N) : ℕ :=
  (S.filter (fun s => decide (near r (C.features s) (C.features i)))).length

/-- The rescaled epsilon: `scaled_eps = epsilon / (1.0 + (epsilon / 4.0))`. -/
def scaledEps (e : ℚ) : ℚ := e / (1 + e / 4)

/-- The scaling constant `mu = k - 1` (an `int` in the source; here in `ℚ`
since it is only used as a divisor). -/
def muQ (k : ℕ) : ℚ := (k : ℚ) - 1

/-- Lexicographic comparison for the bottom-K selection: the weight value
first, then an injective index-based tiebreak `tb`. -/
def selRel (w : Fin N → ℚ) (tb : Fin N ↪ ℕ) (i j : Fin N) : Prop :=
  w i < w j ∨ (w i = w j ∧ tb i ≤ tb j)

instance (w : Fin N → ℚ) (tb : Fin N ↪ ℕ) : DecidableRel (selRel w tb) :=
  fun _ _ => inferInstanceAs (Decidable (_ ∨ _))

instance (w : Fin N → ℚ) (tb : Fin N ↪ ℕ) : IsTrans (Fin N) (selRel w tb) := by
  refine ⟨fun a b c hab hbc => ?_⟩
  rcases hab with h1 | ⟨h1, h1'⟩ <;> rcases hbc with h2 | ⟨h2, h2'⟩
  · exact Or.inl (lt_trans h1 h2)
  · exact Or.inl (h2 ▸ h1)
  · exact Or.inl (h1 ▸ h2)
  · exact Or.inr ⟨h1.trans h2, le_trans h1' h2'⟩

instance (w : Fin N → ℚ) (tb : Fin N ↪ ℕ) : IsAntisymm (Fin N) (selRel w tb) := by
  refine ⟨fun a b hab hba => ?_⟩
  rcases hab with h1 | ⟨h1, h1'⟩ <;> rcases hba with h2 | ⟨h2, h2'⟩
  · exact absurd h2 (lt_asymm h1)
  · exact absurd h2 (ne_of_gt h1)
  · exact absurd h1 (ne_of_gt h2)
  · exact tb.injective (le_antisymm h1' h2')

instance (w : Fin N → ℚ) (tb : Fin N ↪ ℕ) : IsTotal (Fin N) (selRel w tb) := by
  refine ⟨fun a b => ?_⟩
  rcases lt_trichotomy (w a) (w b) with h | h | h
  · exact Or.inl (Or.inl h)
  · rcases le_total (tb a) (tb b) with h' | h'
    · exact Or.inl (Or.inr ⟨h, h'⟩)
    · exact Or.inr (Or.inr ⟨h.symm, h'⟩)
  · exact Or.inr (Or.inl h)

/-- The elements of a finite index set as a list, in index order. -/
def finsetList (s : Finset (Fin N)) : List (Fin N) :=
  (List.finRange N).filter (fun i => decide (i ∈ s))

lemma mem_finsetList {s : Finset (Fin N)} {i : Fin N} : i ∈ finsetList s ↔ i ∈ s := by
  unfold finsetList
  rw [List.mem_filter]
  simp [List.mem_finRange]

lemma nodup_finsetList (s : Finset (Fin N)) : (finsetList s).Nodup :=
  (List.nodup_finRange N).filter _

lemma length_finsetList (s : Finset (Fin N)) : (finsetList s).length = s.card := by
  have h1 : (finsetList s).toFinset = s := by
    ext i
    rw [List.mem_toFinset, mem_finsetList]
  rw [← List.toFinset_card_of_nodup (nodup_finsetList s), h1]

/-- A concrete bottom-`m` selection: sort the candidate indices by
(value, tiebreak) and keep the first `m`. -/
def selBySort (w : Fin N → ℚ) (tb : Fin N ↪ ℕ) (I : Finset (Fin N)) (m : ℕ) :
    Finset (Fin N) :=
  (((finsetList I).insertionSort (selRel w tb)).take m).toFinset

/-- Ascending-index tiebreak. -/
def tbAsc : Fin N ↪ ℕ := ⟨Fin.val, Fin.val_injective⟩

/-- Descending-index tiebreak (also injective). -/
def tbDesc : Fin N ↪ ℕ :=
  ⟨fun i => N - 1 - i.val, by
    intro i j hij
    have hij2 : N - 1 - i.val = N - 1 - j.val := hij
    have hi := i.isLt
    have hj := j.isLt
    exact Fin.val_injective (by omega)⟩

/-- Bottom-`m` selection breaking ties by ascending index. -/
def selBottom (w : Fin N → ℚ) (I : Finset (Fin N)) (m : ℕ) : Finset (Fin N) :=
  selBySort w tbAsc I m

/-- Bottom-`m` selection breaking ties by descending index. -/
def selAltTie (w : Fin N → ℚ) (I : Finset (Fin N)) (m : ℕ) : Finset (Fin N) :=
  selBySort w tbDesc I m

/-- The documented contract of `np.argpartition(color_sums, m-1)[:m]`
composed with `color_sums_ind`: a set of `m` distinct candidate indices whose
values are no larger than the values at all rejected candidates.  Tie order
is unspecified by numpy. -/
def SelSpec (sel : (Fin N → ℚ) → Finset (Fin N) → ℕ → Finset (Fin N)) : Prop :=
  ∀ w I m, m ≤ I.card →
    sel w I m ⊆ I ∧ (sel w I m).card = m ∧
      ∀ i ∈ sel w I m, ∀ j ∈ I, j ∉ sel w I m → w i ≤ w j

lemma selRel_imp_le {w : Fin N → ℚ} {tb : Fin N ↪ ℕ} {i j : Fin N}
    (h : selRel w tb i j) : w i ≤ w j := by
  rcases h with h1 | ⟨h1, _⟩
  · exact le_of_lt h1
  · exact le_of_eq h1

lemma selBySort_spec (tb : Fin N ↪ ℕ) :
    SelSpec (fun w I m => selBySort w tb I m) := by
  intro w I m hm
  beta_reduce
  set l := (finsetList I).insertionSort (selRel w tb) with hl
  have hperm : List.Perm l (finsetList I) := List.perm_insertionSort _ _
  have hnd : l.Nodup := hperm.nodup_iff.mpr (nodup_finsetList I)
  have hlen : l.length = I.card := hperm.length_eq.trans (length_finsetList I)
  have hmem : ∀ x, x ∈ l ↔ x ∈ I := fun x => hperm.mem_iff.trans mem_finsetList
  have hndt : (l.take m).Nodup := hnd.sublist (List.take_sublist m l)
  refine ⟨?_, ?_, ?_⟩
  · intro x hx
    rw [show selBySort w tb I m = (l.take m).toFinset from rfl, List.mem_toFinset] at hx
    exact (hmem x).mp (List.take_subset m l hx)
  · rw [show selBySort w tb I m = (l.take m).toFinset from rfl,
      List.toFinset_card_of_nodup hndt, List.length_take, hlen]
    exact Nat.min_eq_left hm
  · intro i hi j hj hj2
    rw [show selBySort w tb I m = (l.take m).toFinset from rfl, List.mem_toFinset] at hi hj2
    have hjl : j ∈ l := (hmem j).mpr hj
    have hjd : j ∈ l.drop m := by
      have hsplit : j ∈ l.take m ++ l.drop m := by
        rw [List.take_append_drop m l]; exact hjl
      rcases List.mem_append.mp hsplit with h | h
      · exact absurd h hj2
      · exact h
    have hsort : l.Sorted (selRel w tb) := List.sorted_insertionSort _ _
    have hpw : List.Pairwise (selRel w tb) (l.take m ++ l.drop m) := by
      rw [List.take_append_drop]; exact hsort
    exact selRel_imp_le ((List.pairwise_append.mp hpw).2.2 i hi j hjd)

lemma selBottom_spec : SelSpec (@selBottom N) := by
  intro w I m hm
  exact selBySort_spec tbAsc w I m hm

lemma selAltTie_spec : SelSpec (@selAltTie N) := by
  intro w I m hm
  exact selBySort_spec tbDesc w I m hm

/-- Result of one `mult_weight_upd` call.  `crash` models a Python exception:
the failed `assert(k > 0)`, or the `NameError` raised by `X = X / (t + 1)`
when the loop body never executed and `t` was never bound. -/
inductive Outcome (N : ℕ) where
  | crash : Outcome N
  | infeasible : Outcome N
  | feasible (X : Fin N → ℚ) (iters : ℕ) : Outcome N

/-- Whether the call returned a fractional solution. -/
def Outcome.isFeasible {N : ℕ} : Outcome N → Bool
  | .feasible _ _ => true
  | _ => false

/-- The returned fractional vector (zero vector for non-feasible outcomes). -/
def Outcome.getX {N : ℕ} : Outcome N → Fin N → ℚ
  | .feasible X _ => X
  | _ => fun _ => 0

/-- The number of loop iterations executed before returning (0 for
non-feasible outcomes). -/
def Outcome.getIters {N : ℕ} : Outcome N → ℕ
  | .feasible _ t => t
  | _ => 0

/-- The mutable loop state of `mult_weight_upd`: the weight vector `h`, the
accumulator `X`, the early-stop wait counter (a Python int, which goes
negative) and the position of the next unread value of the `waits` stream. -/
structure MWUState (N : ℕ) where
  h : Fin N → ℚ
  X : Fin N → ℚ
  wait : ℤ
  widx : ℕ

/-- The per-color `X[min_indecies] += 1` updates, folded over `kis.keys()`
exactly as the source loop does. -/
def foldXL (C : Ctx N d) (w : Fin N → ℚ) (L : List (ℕ × ℕ)) (X : Fin N → ℚ) :
    Fin N → ℚ :=
  L.foldl (fun X p => fun i =>
    if i ∈ C.sel w (colorIdx C p.1) p.2 then X i + 1 else X i) X

/-- `X` after the per-color selection loop of one iteration. -/
def foldX (C : Ctx N d) (w : Fin N → ℚ) (X : Fin N → ℚ) : Fin N → ℚ :=
  foldXL C w C.kis X

/-- The per-color contributions `np.sum(w_sums[min_indecies])` to `W`. -/
def roundWL (C : Ctx N d) (w : Fin N → ℚ) (L : List (ℕ × ℕ)) : ℚ :=
  (L.map (fun p => ∑ i ∈ C.sel w (colorIdx C p.1) p.2, w i)).sum

/-- The iteration's accumulated weight `W`. -/
def roundW (C : Ctx N d) (w : Fin N → ℚ) : ℚ := roundWL C w C.kis

/-- The set of indices selected across all colors in one iteration. -/
def roundSelL (C : Ctx N d) (w : Fin N → ℚ) (L : List (ℕ × ℕ)) : Finset (Fin N) :=
  L.foldr (fun p acc => C.sel w (colorIdx C p.1) p.2 ∪ acc) ∅

/-- The set of indices selected in one iteration (`S` as index sets). -/
def roundSel (C : Ctx N d) (w : Fin N → ℚ) : Finset (Fin N) := roundSelL C w C.kis

/-- The round's center list `S` (rows appended per color, kept as the list of
selected indices; row coordinates are recovered through `features`). -/
def selListL (C : Ctx N d) (w : Fin N → ℚ) (L : List (ℕ × ℕ)) : List (Fin N) :=
  L.foldr (fun p acc => finsetList (C.sel w (colorIdx C p.1) p.2) ++ acc) []

/-- The round's center list over the full `kis`. -/
def selList (C : Ctx N d) (w : Fin N → ℚ) : List (Fin N) := selListL C w C.kis

/-- The vector `M`: `M[i] = (1.0 / mu) * ((-1 * c) + 1)` with `c` the
ball-count of point `i` against the round's centers at radius `gamma / 2`. -/
def Mvec (C : Ctx N d) (S : List (Fin N)) : Fin N → ℚ :=
  fun i => (1 / muQ C.k) * ((-1) * (countsIn C (C.gamma / 2) S i : ℚ) + 1)

/-- The multiplicative update `h * (ones - (scaled_eps / 4) * M)`. -/
def hUpd (C : Ctx N d) (h M : Fin N → ℚ) : Fin N → ℚ :=
  fun i => h i * (1 - scaledEps C.eps / 4 * M i)

/-- The renormalization `h /= np.sum(h)`. -/
def normalize (v : Fin N → ℚ) : Fin N → ℚ := fun i => v i / ∑ j, v j

/-- The early-stop test: `not np.any(X_weights > 1 + epsilon)` where
`X_weights` is the weighted query at radius `gamma / 2` on `X / (t + 1)`. -/
def earlyFeasible (C : Ctx N d) (t : ℕ) (X2 : Fin N → ℚ) : Prop :=
  ¬ ∃ i, wsums C (C.gamma / 2) (fun j => X2 j / (t + 1)) i > 1 + C.eps

instance (C : Ctx N d) (t : ℕ) (X2 : Fin N → ℚ) : Decidable (earlyFeasible C t X2) := by
  unfold earlyFeasible; exact inferInstance

/-- One loop iteration either stops the call with an outcome or continues
with a new state. -/
inductive StepRes (N : ℕ) where
  | stop (o : Outcome N) : StepRes N
  | cont (st : MWUState N) : StepRes N

/-- The state after one full non-returning iteration at index `t`: query,
per-color selections and `X` update, ball counts, `h` update and
renormalization, and the wait-counter bookkeeping (reset when the early-stop
check ran but did not break, decrement otherwise). -/
def advance (C : Ctx N d) (t : ℕ) (st : MWUState N) : MWUState N :=
  let w := wsums C (C.gamma / 2) st.h
  let X2 := foldX C w st.X
  let h2 := normalize (hUpd C st.h (Mvec C (selList C w)))
  if 100 < t ∧ st.wait = 0 then
    ⟨h2, X2, C.waits st.widx, st.widx + 1⟩
  else
    ⟨h2, X2, st.wait - 1, st.widx⟩

/-- One iteration of the `for t in trange(...)` body: return `None` when the
accumulated `W` reaches 1 (checked after the per-color loop, before the `h`
update), break with the fractional solution when the early-stop check runs
and passes, and otherwise continue with the advanced state. -/
def stepOnce (C : Ctx N d) (t : ℕ) (st : MWUState N) : StepRes N :=
  let w := wsums C (C.gamma / 2) st.h
  let X2 := foldX C w st.X
  if 1 ≤ roundW C w then .stop .infeasible
  else if 100 < t ∧ st.wait = 0 ∧ earlyFeasible C t X2 then
    .stop (.feasible (fun i => X2 i / (t + 1)) (t + 1))
  else .cont (advance C t st)

/-- The loop: run `fuel` more iterations starting at index `t`.  When the
fuel is exhausted the source computes `X = X / (t + 1)` with `t` the last
executed index (crashing with a `NameError` when no iteration ran). -/
def mwuGo (C : Ctx N d) : ℕ → ℕ → MWUState N → Outcome N
  | 0, t, st => if t = 0 then .crash else .feasible (fun i => st.X i / t) t
  | fuel + 1, t, st =>
    match stepOnce C t st with
    | .stop o => o
    | .cont st2 => mwuGo C fuel (t + 1) st2

/-- The state before the first iteration: `h` uniform at `1/N`, `X` zero,
the wait counter holding the first draw of `gen.integers(9, 29)`. -/
def initState (C : Ctx N d) : MWUState N :=
  ⟨fun _ => 1 / N, fun _ => 0, C.waits 0, 1⟩

/-- `mult_weight_upd` with the iteration count supplied explicitly. -/
def mwuRun (C : Ctx N d) (steps : ℕ) : Outcome N := mwuGo C steps 0 (initState C)

/-- The state at the start of iteration `t`, had no return or break occurred
earlier (it coincides with the live state for as long as the loop runs). -/
def iterState (C : Ctx N d) : ℕ → MWUState N
  | 0 => initState C
  | t + 1 => advance C t (iterState C t)

/-- The accumulated weight `W` of iteration `t` along the iteration trace. -/
def roundWAt (C : Ctx N d) (t : ℕ) : ℚ :=
  roundW C (wsums C (C.gamma / 2) (iterState C t).h)

/-- The iteration count `math.ceil(T)` where
`T = ((8 * mu) / scaled_eps^2) * log N` scaled by
`percent_theoretical_limit`; the ceiling is applied to the scaled value. -/
noncomputable def mwuSteps (k N : ℕ) (e a : ℚ) : ℕ :=
  ⌈8 * (muQ k : ℝ) / ((scaledEps e : ℚ) : ℝ) ^ 2 * Real.log N * (a : ℝ)⌉₊

/-- The solver `mult_weight_upd(gamma, N, k, features, colors, c_tree, kis,
epsilon, percent_theoretical_limit)`, with `a` the percent parameter.  The
`assert(k > 0)` failure is a crash. -/
noncomputable def mult_weight_upd (C : Ctx N d) (a : ℚ) : Outcome N :=
  if C.k = 0 then .crash else mwuRun C (mwuSteps C.k N C.eps a)

/-- The gamma values attempted by `epsilon_falloff`: start at `gamma_upper`
and multiply by `(1 - falloff_epsilon)` after each infeasible call. -/
def gammaSeq (g0 ef : ℚ) : ℕ → ℚ
  | 0 => g0
  | n + 1 => gammaSeq g0 ef n * (1 - ef)

/-- The context of the `n`-th solver call made by `epsilon_falloff`. -/
def atGamma (C : Ctx N d) (g : ℚ) : Ctx N d := { C with gamma := g }

/-- Validity of the quota map: distinct colors (it is a Python dict) and
each requested count positive and satisfiable within its color class. -/
def KisValid (C : Ctx N d) : Prop :=
  C.kis.Pairwise (fun p q => p.1 ≠ q.1) ∧
    ∀ p ∈ C.kis, 1 ≤ p.2 ∧ p.2 ≤ (colorIdx C p.1).card

/-- The total number of points requested by the quota map. -/
def totalK (C : Ctx N d) : ℕ := (C.kis.map Prod.snd).sum

/-- The contract of `gen.integers(9, 29)`: every draw lies in `[9, 28]`. -/
def WaitsOK (C : Ctx N d) : Prop := ∀ n, 9 ≤ C.waits n ∧ C.waits n ≤ 28

lemma mem_roundSelL {C : Ctx N d} {w : Fin N → ℚ} {L : List (ℕ × ℕ)} {i : Fin N} :
    i ∈ roundSelL C w L ↔ ∃ p ∈ L, i ∈ C.sel w (colorIdx C p.1) p.2 := by
  induction L with
  | nil => simp [roundSelL]
  | cons p rest ih =>
    have : roundSelL C w (p :: rest) = C.sel w (colorIdx C p.1) p.2 ∪ roundSelL C w rest := rfl
    rw [this, Finset.mem_union, ih]
    simp

lemma colorIdx_disjoint {C : Ctx N d} {c c' : ℕ} (h : c ≠ c') :
    Disjoint (colorIdx C c) (colorIdx C c') := by
  rw [Finset.disjoint_left]
  intro i hi hi'
  rw [colorIdx, Finset.mem_filter] at hi hi'
  exact h (hi.2 ▸ hi'.2.symm ▸ rfl)

lemma sel_disjoint_rest {C : Ctx N d} {w : Fin N → ℚ} {p : ℕ × ℕ} {rest : List (ℕ × ℕ)}
    (hsel : SelSpec C.sel)
    (hpn : ∀ q ∈ rest, p.1 ≠ q.1)
    (hvp : p.2 ≤ (colorIdx C p.1).card)
    (hvr : ∀ q ∈ rest, q.2 ≤ (colorIdx C q.1).card) :
    Disjoint (C.sel w (colorIdx C p.1) p.2) (roundSelL C w rest) := by
  rw [Finset.disjoint_left]
  intro i hip hir
  rcases mem_roundSelL.mp hir with ⟨q, hq, hiq⟩
  have h1 : i ∈ colorIdx C p.1 := (hsel w _ _ hvp).1 hip
  have h2 : i ∈ colorIdx C q.1 := (hsel w _ _ (hvr q hq)).1 hiq
  exact (Finset.disjoint_left.mp (colorIdx_disjoint (hpn q hq)) h1) h2

lemma roundWL_eq_sum {C : Ctx N d} {w : Fin N → ℚ} {L : List (ℕ × ℕ)}
    (hsel : SelSpec C.sel)
    (hpw : L.Pairwise (fun p q => p.1 ≠ q.1))
    (hv : ∀ p ∈ L, p.2 ≤ (colorIdx C p.1).card) :
    roundWL C w L = ∑ i ∈ roundSelL C w L, w i := by
  induction L with
  | nil => simp [roundWL, roundSelL]
  | cons p rest ih =>
    rw [List.pairwise_cons] at hpw
    have hd := sel_disjoint_rest (w := w) hsel hpw.1 (hv p (by simp))
      (fun q hq => hv q (by simp [hq]))
    have hcons : roundSelL C w (p :: rest) = C.sel w (colorIdx C p.1) p.2 ∪ roundSelL C w rest := rfl
    have hwl : roundWL C w (p :: rest) =
        (∑ i ∈ C.sel w (colorIdx C p.1) p.2, w i) + roundWL C w rest := by
      simp [roundWL]
    rw [hwl, hcons, Finset.sum_union hd, ih hpw.2 (fun q hq => hv q (by simp [hq]))]

lemma card_roundSelL {C : Ctx N d} {w : Fin N → ℚ} {L : List (ℕ × ℕ)}
    (hsel : SelSpec C.sel)
    (hpw : L.Pairwise (fun p q => p.1 ≠ q.1))
    (hv : ∀ p ∈ L, p.2 ≤ (colorIdx C p.1).card) :
    (roundSelL C w L).card = (L.map Prod.snd).sum := by
  induction L with
  | nil => simp [roundSelL]
  | cons p rest ih =>
    rw [List.pairwise_cons] at hpw
    have hd := sel_disjoint_rest (w := w) hsel hpw.1 (hv p (by simp))
      (fun q hq => hv q (by simp [hq]))
    have hcons : roundSelL C w (p :: rest) = C.sel w (colorIdx C p.1) p.2 ∪ roundSelL C w rest := rfl
    rw [hcons, Finset.card_union_of_disjoint hd,
      (hsel w _ _ (hv p (by simp))).2.1, ih hpw.2 (fun q hq => hv q (by simp [hq]))]
    simp

lemma foldXL_char {C : Ctx N d} {w : Fin N → ℚ} {L : List (ℕ × ℕ)}
    (hsel : SelSpec C.sel)
    (hpw : L.Pairwise (fun p q => p.1 ≠ q.1))
    (hv : ∀ p ∈ L, p.2 ≤ (colorIdx C p.1).card) :
    ∀ X i, foldXL C w L X i = X i + if i ∈ roundSelL C w L then 1 else 0 := by
  induction L with
  | nil => intro X i; simp [foldXL, roundSelL]
  | cons p rest ih =>
    intro X i
    rw [List.pairwise_cons] at hpw
    have hd := sel_disjoint_rest (w := w) hsel hpw.1 (hv p (by simp))
      (fun q hq => hv q (by simp [hq]))
    have hcons : roundSelL C w (p :: rest) = C.sel w (colorIdx C p.1) p.2 ∪ roundSelL C w rest := rfl
    have hfold : foldXL C w (p :: rest) X =
        foldXL C w rest (fun i => if i ∈ C.sel w (colorIdx C p.1) p.2 then X i + 1 else X i) :=
      rfl
    rw [hfold, ih hpw.2 (fun q hq => hv q (by simp [hq])), hcons]
    by_cases hip : i ∈ C.sel w (colorIdx C p.1) p.2
    · have hir : i ∉ roundSelL C w rest := Finset.disjoint_left.mp hd hip
      simp [hip, hir, Finset.mem_union]
    · by_cases hir : i ∈ roundSelL C w rest <;> simp [hip, hir, Finset.mem_union]

lemma totalK_le_N {C : Ctx N d} (hsel : SelSpec C.sel) (hkv : KisValid C) :
    totalK C ≤ N := by
  have hc := card_roundSelL (w := fun _ => 0) hsel hkv.1 (fun p hp => (hkv.2 p hp).2)
  calc totalK C = (roundSelL C (fun _ => 0) C.kis).card := hc.symm
    _ ≤ Finset.univ.card := Finset.card_le_univ _
    _ = N := by simp

lemma advance_h (C : Ctx N d) (t : ℕ) (st : MWUState N) :
    (advance C t st).h =
      normalize (hUpd C st.h (Mvec C (selList C (wsums C (C.gamma / 2) st.h)))) := by
  unfold advance
  dsimp only
  split <;> rfl

lemma advance_X (C : Ctx N d) (t : ℕ) (st : MWUState N) :
    (advance C t st).X = foldX C (wsums C (C.gamma / 2) st.h) st.X := by
  unfold advance
  dsimp only
  split <;> rfl

lemma advance_wait (C : Ctx N d) (t : ℕ) (st : MWUState N)
    (h : ¬(100 < t ∧ st.wait = 0)) : (advance C t st).wait = st.wait - 1 := by
  unfold advance
  dsimp only
  rw [if_neg h]

lemma scaledEps_pos {e : ℚ} (he : 0 < e) : 0 < scaledEps e := by
  unfold scaledEps
  positivity

lemma scaledEps_lt_four {e : ℚ} (he : 0 < e) : scaledEps e < 4 := by
  unfold scaledEps
  rw [div_lt_iff₀ (by positivity)]
  linarith

lemma muQ_ge_one {k : ℕ} (hk : 2 ≤ k) : 1 ≤ muQ k := by
  unfold muQ
  have : (2 : ℚ) ≤ (k : ℚ) := by exact_mod_cast hk
  linarith

lemma hUpd_factor_pos {C : Ctx N d} (hk : 2 ≤ C.k) (he : 0 < C.eps)
    (S : List (Fin N)) (i : Fin N) :
    0 < 1 - scaledEps C.eps / 4 * Mvec C S i := by
  have hmu : 1 ≤ muQ C.k := muQ_ge_one hk
  have hmu0 : 0 < muQ C.k := lt_of_lt_of_le one_pos hmu
  have hse : 0 < scaledEps C.eps := scaledEps_pos he
  have hse4 : scaledEps C.eps < 4 := scaledEps_lt_four he
  have hMle : Mvec C S i ≤ 1 / muQ C.k := by
    unfold Mvec
    have hc : (0 : ℚ) ≤ (countsIn C (C.gamma / 2) S i : ℚ) := by positivity
    have : (-1) * (countsIn C (C.gamma / 2) S i : ℚ) + 1 ≤ 1 := by linarith
    calc 1 / muQ C.k * ((-1) * (countsIn C (C.gamma / 2) S i : ℚ) + 1)
        ≤ 1 / muQ C.k * 1 := by
          exact mul_le_mul_of_nonneg_left this (by positivity)
      _ = 1 / muQ C.k := mul_one _
  rcases le_or_lt (Mvec C S i) 0 with hM | hM
  · have : scaledEps C.eps / 4 * Mvec C S i ≤ 0 :=
      mul_nonpos_of_nonneg_of_nonpos (by positivity) hM
    linarith
  · have h1 : scaledEps C.eps / 4 * Mvec C S i ≤ scaledEps C.eps / 4 * (1 / muQ C.k) :=
      mul_le_mul_of_nonneg_left hMle (by positivity)
    have h2 : scaledEps C.eps / 4 * (1 / muQ C.k) < 1 * (1 / muQ C.k) := by
      apply mul_lt_mul_of_pos_right _ (by positivity)
      linarith
    have h3 : 1 * (1 / muQ C.k) ≤ 1 := by
      rw [one_mul]
      rw [div_le_one hmu0]
      exact hmu
    linarith

lemma normalize_sum_one {v : Fin N → ℚ} (hN : 1 ≤ N) (hv : ∀ i, 0 < v i) :
    (∀ i, 0 < normalize v i) ∧ ∑ i, normalize v i = 1 := by
  have hne : (Finset.univ : Finset (Fin N)).Nonempty := by
    rw [Finset.univ_nonempty_iff]
    exact Fin.pos_iff_nonempty.mp hN
  have hs : 0 < ∑ j, v j := Finset.sum_pos (fun i _ => hv i) hne
  constructor
  · intro i
    unfold normalize
    exact div_pos (hv i) hs
  · unfold normalize
    rw [← Finset.sum_div, div_self (ne_of_gt hs)]

lemma iterState_h {C : Ctx N d} (hN : 1 ≤ N) (hk : 2 ≤ C.k) (he : 0 < C.eps) :
    ∀ t, (∀ i, 0 < (iterState C t).h i) ∧ ∑ i, (iterState C t).h i = 1 := by
  intro t
  induction t with
  | zero =>
    constructor
    · intro i
      show (0 : ℚ) < 1 / N
      have : (0 : ℚ) < (N : ℚ) := by exact_mod_cast hN
      positivity
    · show ∑ _i : Fin N, (1 : ℚ) / N = 1
      rw [Finset.sum_const, Finset.card_univ, Fintype.card_fin, nsmul_eq_mul]
      have : (N : ℚ) ≠ 0 := by
        have : (0 : ℚ) < (N : ℚ) := by exact_mod_cast hN
        exact ne_of_gt this
      field_simp
  | succ t ih =>
    have hpos : ∀ i, 0 < hUpd C (iterState C t).h
        (Mvec C (selList C (wsums C (C.gamma / 2) (iterState C t).h))) i := by
      intro i
      unfold hUpd
      exact mul_pos (ih.1 i) (hUpd_factor_pos hk he _ i)
    have := normalize_sum_one hN hpos
    rw [show iterState C (t + 1) = advance C t (iterState C t) from rfl, advance_h]
    exact this

lemma iterState_wait {C : Ctx N d} (hw : C.waits 0 ≤ 28) :
    ∀ t, (iterState C t).wait = C.waits 0 - t := by
  intro t
  induction t with
  | zero => simp [iterState, initState]
  | succ t ih =>
    have hnf : ¬(100 < t ∧ (iterState C t).wait = 0) := by
      rintro ⟨ht, hz⟩
      rw [ih] at hz
      omega
    rw [show iterState C (t + 1) = advance C t (iterState C t) from rfl,
      advance_wait C t _ hnf, ih]
    push_cast
    ring

lemma noFire {C : Ctx N d} (hw : C.waits 0 ≤ 28) (t : ℕ) :
    ¬(100 < t ∧ (iterState C t).wait = 0) := by
  rintro ⟨ht, hz⟩
  rw [iterState_wait hw] at hz
  omega

lemma stepOnce_infeasible {C : Ctx N d} {t : ℕ} {st : MWUState N}
    (h : 1 ≤ roundW C (wsums C (C.gamma / 2) st.h)) :
    stepOnce C t st = .stop .infeasible := by
  unfold stepOnce
  dsimp only
  rw [if_pos h]

lemma stepOnce_break {C : Ctx N d} {t : ℕ} {st : MWUState N}
    (h1 : ¬ 1 ≤ roundW C (wsums C (C.gamma / 2) st.h))
    (h2 : 100 < t ∧ st.wait = 0 ∧
      earlyFeasible C t (foldX C (wsums C (C.gamma / 2) st.h) st.X)) :
    stepOnce C t st = .stop (.feasible
      (fun i => foldX C (wsums C (C.gamma / 2) st.h) st.X i / (t + 1)) (t + 1)) := by
  unfold stepOnce
  dsimp only
  rw [if_neg h1, if_pos h2]

lemma stepOnce_cont {C : Ctx N d} {t : ℕ} {st : MWUState N}
    (h1 : ¬ 1 ≤ roundW C (wsums C (C.gamma / 2) st.h))
    (h2 : ¬(100 < t ∧ st.wait = 0 ∧
      earlyFeasible C t (foldX C (wsums C (C.gamma / 2) st.h) st.X))) :
    stepOnce C t st = .cont (advance C t st) := by
  unfold stepOnce
  dsimp only
  rw [if_neg h1, if_neg h2]

lemma mwuGo_succ (C : Ctx N d) (fuel t : ℕ) (st : MWUState N) :
    mwuGo C (fuel + 1) t st =
      match stepOnce C t st with
      | .stop o => o
      | .cont st2 => mwuGo C fuel (t + 1) st2 := rfl

lemma mwuGo_zero (C : Ctx N d) (t : ℕ) (st : MWUState N) :
    mwuGo C 0 t st = if t = 0 then .crash else .feasible (fun i => st.X i / t) t := rfl

lemma mwuGo_ne_crash {C : Ctx N d} :
    ∀ fuel t, 1 ≤ t + fuel → ∀ st : MWUState N, mwuGo C fuel t st ≠ .crash := by
  intro fuel
  induction fuel with
  | zero =>
    intro t ht st
    rw [mwuGo_zero, if_neg (by omega)]
    intro h
    exact Outcome.noConfusion h
  | succ fuel ih =>
    intro t _ht st
    rw [mwuGo_succ]
    by_cases h1 : 1 ≤ roundW C (wsums C (C.gamma / 2) st.h)
    · rw [stepOnce_infeasible h1]
      intro h
      exact Outcome.noConfusion h
    · by_cases h2 : 100 < t ∧ st.wait = 0 ∧
          earlyFeasible C t (foldX C (wsums C (C.gamma / 2) st.h) st.X)
      · rw [stepOnce_break h1 h2]
        intro h
        exact Outcome.noConfusion h
      · rw [stepOnce_cont h1 h2]
        exact ih (t + 1) (by omega) _

lemma mwuGo_iters_le {C : Ctx N d} :
    ∀ fuel t (st : MWUState N) Xo it,
      mwuGo C fuel t st = .feasible Xo it → it ≤ t + fuel := by
  intro fuel
  induction fuel with
  | zero =>
    intro t st Xo it h
    rw [mwuGo_zero] at h
    by_cases ht : t = 0
    · rw [if_pos ht] at h
      exact absurd h (by intro hc; exact Outcome.noConfusion hc)
    · rw [if_neg ht] at h
      have := (Outcome.feasible.injEq _ _ _ _).mp h
      omega
  | succ fuel ih =>
    intro t st Xo it h
    rw [mwuGo_succ] at h
    by_cases h1 : 1 ≤ roundW C (wsums C (C.gamma / 2) st.h)
    · rw [stepOnce_infeasible h1] at h
      exact absurd h (by intro hc; exact Outcome.noConfusion hc)
    · by_cases h2 : 100 < t ∧ st.wait = 0 ∧
          earlyFeasible C t (foldX C (wsums C (C.gamma / 2) st.h) st.X)
      · rw [stepOnce_break h1 h2] at h
        have := (Outcome.feasible.injEq _ _ _ _).mp h
        omega
      · rw [stepOnce_cont h1 h2] at h
        have := ih (t + 1) _ Xo it h
        omega

lemma mwuGo_feasible_shape {C : Ctx N d} :
    ∀ fuel t Xo it, mwuGo C fuel t (iterState C t) = .feasible Xo it →
      t ≤ it ∧ 1 ≤ it ∧ it ≤ t + fuel ∧
        Xo = fun i => (iterState C it).X i / it := by
  intro fuel
  induction fuel with
  | zero =>
    intro t Xo it h
    rw [mwuGo_zero] at h
    by_cases ht : t = 0
    · rw [if_pos ht] at h
      exact absurd h (by intro hc; exact Outcome.noConfusion hc)
    · rw [if_neg ht] at h
      have hinj := (Outcome.feasible.injEq _ _ _ _).mp h
      refine ⟨by omega, by omega, by omega, ?_⟩
      rw [← hinj.1, ← hinj.2]
  | succ fuel ih =>
    intro t Xo it h
    rw [mwuGo_succ] at h
    by_cases h1 : 1 ≤ roundW C (wsums C (C.gamma / 2) (iterState C t).h)
    · rw [stepOnce_infeasible h1] at h
      exact absurd h (by intro hc; exact Outcome.noConfusion hc)
    · by_cases h2 : 100 < t ∧ (iterState C t).wait = 0 ∧
          earlyFeasible C t (foldX C (wsums C (C.gamma / 2) (iterState C t).h) (iterState C t).X)
      · rw [stepOnce_break h1 h2] at h
        have hinj := (Outcome.feasible.injEq _ _ _ _).mp h
        refine ⟨by omega, by omega, by omega, ?_⟩
        rw [← hinj.1, ← hinj.2]
        have hX : (iterState C (t + 1)).X =
            foldX C (wsums C (C.gamma / 2) (iterState C t).h) (iterState C t).X := by
          rw [show iterState C (t + 1) = advance C t (iterState C t) from rfl, advance_X]
        have hc : ((t + 1 : ℕ) : ℚ) = (t : ℚ) + 1 := by push_cast; ring
        rw [hX, hc]
      · rw [stepOnce_cont h1 h2] at h
        have hst : advance C t (iterState C t) = iterState C (t + 1) := rfl
        rw [hst] at h
        have := ih (t + 1) Xo it h
        exact ⟨by omega, this.2.1, by omega, this.2.2.2⟩

lemma mwuGo_infeasible_iff {C : Ctx N d} (hw : C.waits 0 ≤ 28) :
    ∀ fuel t, mwuGo C fuel t (iterState C t) = .infeasible ↔
      ∃ u, t ≤ u ∧ u < t + fuel ∧ 1 ≤ roundWAt C u := by
  intro fuel
  induction fuel with
  | zero =>
    intro t
    rw [mwuGo_zero]
    constructor
    · intro h
      by_cases ht : t = 0
      · rw [if_pos ht] at h
        exact absurd h (by intro hc; exact Outcome.noConfusion hc)
      · rw [if_neg ht] at h
        exact absurd h (by intro hc; exact Outcome.noConfusion hc)
    · rintro ⟨u, hu1, hu2, _⟩
      omega
  | succ fuel ih =>
    intro t
    rw [mwuGo_succ]
    by_cases h1 : 1 ≤ roundW C (wsums C (C.gamma / 2) (iterState C t).h)
    · rw [stepOnce_infeasible h1]
      constructor
      · intro _
        exact ⟨t, le_refl t, by omega, h1⟩
      · intro _
        rfl
    · have h2 : ¬(100 < t ∧ (iterState C t).wait = 0 ∧
          earlyFeasible C t (foldX C (wsums C (C.gamma / 2) (iterState C t).h) (iterState C t).X)) := by
        intro hcon
        exact noFire hw t ⟨hcon.1, hcon.2.1⟩
      rw [stepOnce_cont h1 h2]
      have hst : advance C t (iterState C t) = iterState C (t + 1) := rfl
      rw [hst, ih (t + 1)]
      constructor
      · rintro ⟨u, hu1, hu2, hu3⟩
        exact ⟨u, by omega, by omega, hu3⟩
      · rintro ⟨u, hu1, hu2, hu3⟩
        refine ⟨u, ?_, by omega, hu3⟩
        rcases Nat.eq_or_lt_of_le hu1 with heq | hlt
        · exact absurd (heq ▸ hu3) h1
        · omega

lemma mwuGo_complete {C : Ctx N d} (hw : C.waits 0 ≤ 28) :
    ∀ fuel t, (∀ u, t ≤ u → u < t + fuel → roundWAt C u < 1) → 1 ≤ t + fuel →
      mwuGo C fuel t (iterState C t) =
        .feasible (fun i => (iterState C (t + fuel)).X i / ((t + fuel : ℕ) : ℚ)) (t + fuel) := by
  intro fuel
  induction fuel with
  | zero =>
    intro t _hW ht
    rw [mwuGo_zero, if_neg (by omega)]
    simp
  | succ fuel ih =>
    intro t hW ht
    rw [mwuGo_succ]
    have h1 : ¬ 1 ≤ roundW C (wsums C (C.gamma / 2) (iterState C t).h) := by
      have := hW t (le_refl t) (by omega)
      rw [roundWAt] at this
      linarith
    have h2 : ¬(100 < t ∧ (iterState C t).wait = 0 ∧
        earlyFeasible C t (foldX C (wsums C (C.gamma / 2) (iterState C t).h) (iterState C t).X)) := by
      intro hcon
      exact noFire hw t ⟨hcon.1, hcon.2.1⟩
    rw [stepOnce_cont h1 h2]
    have hst : advance C t (iterState C t) = iterState C (t + 1) := rfl
    rw [hst]
    have harith : t + 1 + fuel = t + (fuel + 1) := by omega
    have := ih (t + 1) (fun u hu1 hu2 => hW u (by omega) (by omega)) (by omega)
    rw [harith] at this
    exact this

lemma mwuGo_feasible_exists {C : Ctx N d} :
    ∀ fuel t, (∀ u, t ≤ u → u < t + fuel → roundWAt C u < 1) → 1 ≤ t + fuel →
      (mwuGo C fuel t (iterState C t)).isFeasible = true := by
  intro fuel
  induction fuel with
  | zero =>
    intro t _hW ht
    rw [mwuGo_zero, if_neg (by omega)]
    rfl
  | succ fuel ih =>
    intro t hW _ht
    rw [mwuGo_succ]
    have h1 : ¬ 1 ≤ roundW C (wsums C (C.gamma / 2) (iterState C t).h) := by
      have := hW t (le_refl t) (by omega)
      rw [roundWAt] at this
      linarith
    by_cases h2 : 100 < t ∧ (iterState C t).wait = 0 ∧
        earlyFeasible C t (foldX C (wsums C (C.gamma / 2) (iterState C t).h) (iterState C t).X)
    · rw [stepOnce_break h1 h2]
      rfl
    · rw [stepOnce_cont h1 h2]
      have hst : advance C t (iterState C t) = iterState C (t + 1) := rfl
      rw [hst]
      exact ih (t + 1) (fun u hu1 hu2 => hW u (by omega) (by omega)) (by omega)

lemma mwuGo_no_early {C : Ctx N d} (hw : C.waits 0 ≤ 28) :
    ∀ fuel t Xo it, mwuGo C fuel t (iterState C t) = .feasible Xo it → it = t + fuel := by
  intro fuel
  induction fuel with
  | zero =>
    intro t Xo it h
    rw [mwuGo_zero] at h
    by_cases ht : t = 0
    · rw [if_pos ht] at h
      exact absurd h (by intro hc; exact Outcome.noConfusion hc)
    · rw [if_neg ht] at h
      have := (Outcome.feasible.injEq _ _ _ _).mp h
      omega
  | succ fuel ih =>
    intro t Xo it h
    rw [mwuGo_succ] at h
    by_cases h1 : 1 ≤ roundW C (wsums C (C.gamma / 2) (iterState C t).h)
    · rw [stepOnce_infeasible h1] at h
      exact absurd h (by intro hc; exact Outcome.noConfusion hc)
    · have h2 : ¬(100 < t ∧ (iterState C t).wait = 0 ∧
          earlyFeasible C t (foldX C (wsums C (C.gamma / 2) (iterState C t).h) (iterState C t).X)) := by
        intro hcon
        exact noFire hw t ⟨hcon.1, hcon.2.1⟩
      rw [stepOnce_cont h1 h2] at h
      have hst : advance C t (iterState C t) = iterState C (t + 1) := rfl
      rw [hst] at h
      have := ih (t + 1) Xo it h
      omega

lemma iterState_X_succ {C : Ctx N d} (hsel : SelSpec C.sel) (hkv : KisValid C)
    (t : ℕ) (i : Fin N) :
    (iterState C (t + 1)).X i = (iterState C t).X i +
      if i ∈ roundSel C (wsums C (C.gamma / 2) (iterState C t).h) then 1 else 0 := by
  rw [show iterState C (t + 1) = advance C t (iterState C t) from rfl, advance_X]
  exact foldXL_char hsel hkv.1 (fun p hp => (hkv.2 p hp).2) _ i

lemma iterState_X_bounds {C : Ctx N d} (hsel : SelSpec C.sel) (hkv : KisValid C) :
    ∀ t i, 0 ≤ (iterState C t).X i ∧ (iterState C t).X i ≤ t := by
  intro t
  induction t with
  | zero =>
    intro i
    constructor <;> simp [iterState, initState]
  | succ t ih =>
    intro i
    rw [iterState_X_succ hsel hkv t i]
    rcases ih i with ⟨h0, h1⟩
    have hc : ((t + 1 : ℕ) : ℚ) = (t : ℚ) + 1 := by push_cast; ring
    rw [hc]
    by_cases hmem : i ∈ roundSel C (wsums C (C.gamma / 2) (iterState C t).h) <;>
      simp [hmem] <;> constructor <;> linarith

lemma dist2_self {dd : ℕ} (p : Fin dd → ℚ) : dist2 p p = 0 := by
  simp [dist2]

lemma near_self {dd : ℕ} {r : ℚ} (h0 : 0 ≤ r) (p : Fin dd → ℚ) : near r p p := by
  refine ⟨h0, ?_⟩
  rw [dist2_self]
  positivity

lemma dist2_pos {dd : ℕ} {p q : Fin dd → ℚ} (h : p ≠ q) : 0 < dist2 p q := by
  obtain ⟨i, hi⟩ := Function.ne_iff.mp h
  have hterm : 0 < (p i - q i) ^ 2 :=
    pow_two_pos_of_ne_zero (sub_ne_zero_of_ne hi)
  have hle : (p i - q i) ^ 2 ≤ dist2 p q := by
    apply Finset.single_le_sum (fun j _ => by positivity) (Finset.mem_univ i)
  linarith

lemma wsums_eq_of_far {C : Ctx N d} {r : ℚ} (h0 : 0 ≤ r)
    (hfar : ∀ i j : Fin N, i ≠ j → ¬ near r (C.features i) (C.features j))
    (h : Fin N → ℚ) : wsums C r h = h := by
  funext i
  unfold wsums
  have hfilter : Finset.univ.filter (fun j => near r (C.features i) (C.features j)) = {i} := by
    ext j
    rw [Finset.mem_filter, Finset.mem_singleton]
    constructor
    · rintro ⟨_, hn⟩
      by_contra hji
      exact hfar i j (fun hc => hji hc.symm) hn
    · rintro rfl
      exact ⟨Finset.mem_univ j, near_self h0 _⟩
  rw [hfilter, Finset.sum_singleton]

lemma roundW_lt_one {C : Ctx N d} (hsel : SelSpec C.sel) (hkv : KisValid C)
    (hlt : totalK C < N) {h : Fin N → ℚ}
    (hh : ∀ i, 0 < h i) (hsum : ∑ i, h i = 1) : roundW C h < 1 := by
  rw [roundW, roundWL_eq_sum hsel hkv.1 (fun p hp => (hkv.2 p hp).2)]
  have hcard : (roundSelL C h C.kis).card = totalK C :=
    card_roundSelL hsel hkv.1 (fun p hp => (hkv.2 p hp).2)
  have hsd : (Finset.univ \ roundSelL C h C.kis).Nonempty := by
    rw [← Finset.card_pos, Finset.card_sdiff (Finset.subset_univ _)]
    rw [hcard]
    simp only [Finset.card_univ, Fintype.card_fin]
    omega
  obtain ⟨j, hj⟩ := hsd
  rw [Finset.mem_sdiff] at hj
  calc ∑ i ∈ roundSelL C h C.kis, h i
      < ∑ i, h i := by
        apply Finset.sum_lt_sum_of_subset (Finset.subset_univ _) hj.1 hj.2 (hh j)
        intro i _ _
        exact le_of_lt (hh i)
    _ = 1 := hsum

lemma gammaSeq_closed (g0 ef : ℚ) : ∀ n, gammaSeq g0 ef n = g0 * (1 - ef) ^ n := by
  intro n
  induction n with
  | zero => simp [gammaSeq]
  | succ n ih =>
    rw [show gammaSeq g0 ef (n + 1) = gammaSeq g0 ef n * (1 - ef) from rfl, ih,
      pow_succ, mul_assoc]

lemma gammaSeq_pos {g0 ef : ℚ} (hg : 0 < g0) (hef : ef < 1) (n : ℕ) :
    0 < gammaSeq g0 ef n := by
  rw [gammaSeq_closed]
  have : (0 : ℚ) < 1 - ef := by linarith
  positivity

lemma gammaSeq_anti {g0 ef : ℚ} (hg : 0 < g0) (hef0 : 0 < ef) (hef1 : ef < 1) :
    ∀ n m, n < m → gammaSeq g0 ef m < gammaSeq g0 ef n := by
  intro n m hnm
  rw [gammaSeq_closed, gammaSeq_closed]
  apply mul_lt_mul_of_pos_left _ hg
  apply pow_lt_pow_right_of_lt_one₀ (by linarith) (by linarith) hnm

lemma exists_gammaSeq_lt {g0 ef c : ℚ} (hg : 0 < g0) (hef0 : 0 < ef) (hef1 : ef < 1)
    (hc : 0 < c) : ∃ n, gammaSeq g0 ef n < c := by
  have hq0 : (0 : ℝ) < ((1 - ef : ℚ) : ℝ) := by
    have : (0 : ℚ) < 1 - ef := by linarith
    exact_mod_cast this
  have hq1 : ((1 - ef : ℚ) : ℝ) < 1 := by
    have : (1 - ef : ℚ) < 1 := by linarith
    exact_mod_cast this
  have hcg : (0 : ℝ) < (c : ℝ) / (g0 : ℝ) := by
    have hc' : (0 : ℝ) < (c : ℝ) := by exact_mod_cast hc
    have hg' : (0 : ℝ) < (g0 : ℝ) := by exact_mod_cast hg
    positivity
  obtain ⟨n, hn⟩ := exists_pow_lt_of_lt_one hcg hq1
  refine ⟨n, ?_⟩
  rw [gammaSeq_closed]
  have hg' : (0 : ℝ) < (g0 : ℝ) := by exact_mod_cast hg
  have hreal : ((g0 * (1 - ef) ^ n : ℚ) : ℝ) < (c : ℝ) := by
    push_cast
    calc (g0 : ℝ) * ((1 : ℝ) - (ef : ℝ)) ^ n
        < (g0 : ℝ) * ((c : ℝ) / (g0 : ℝ)) := by
          apply mul_lt_mul_of_pos_left _ hg'
          convert hn using 2
          push_cast
          ring
      _ = (c : ℝ) := by field_simp
  exact_mod_cast hreal

lemma muQ_real_nonpos {k : ℕ} (hk : k ≤ 1) : ((muQ k : ℚ) : ℝ) ≤ 0 := by
  unfold muQ
  interval_cases k <;> norm_num

lemma log_nat_nonneg (n : ℕ) : 0 ≤ Real.log n := by
  rcases Nat.eq_zero_or_pos n with h | h
  · subst h
    simp
  · rcases Nat.eq_or_lt_of_le h with h1 | h1
    · rw [← h1]
      simp
    · apply Real.log_nonneg
      have : (1 : ℕ) ≤ n := by omega
      exact_mod_cast this

lemma mwuSteps_eq_zero_of_k {k Nn : ℕ} {e a : ℚ} (hk : k ≤ 1) (ha : 0 ≤ a) :
    mwuSteps k Nn e a = 0 := by
  unfold mwuSteps
  rw [Nat.ceil_eq_zero]
  have h1 : 8 * ((muQ k : ℚ) : ℝ) ≤ 0 := by
    have := muQ_real_nonpos hk
    linarith
  have h2 : 8 * ((muQ k : ℚ) : ℝ) / ((scaledEps e : ℚ) : ℝ) ^ 2 ≤ 0 :=
    div_nonpos_of_nonpos_of_nonneg h1 (by positivity)
  have h3 : 8 * ((muQ k : ℚ) : ℝ) / ((scaledEps e : ℚ) : ℝ) ^ 2 * Real.log Nn ≤ 0 :=
    mul_nonpos_of_nonpos_of_nonneg h2 (log_nat_nonneg Nn)
  have ha' : (0 : ℝ) ≤ (a : ℝ) := by exact_mod_cast ha
  exact mul_nonpos_of_nonpos_of_nonneg h3 ha'

lemma mwuSteps_eq_zero_of_N {k Nn : ℕ} {e a : ℚ} (hN : Nn ≤ 1) :
    mwuSteps k Nn e a = 0 := by
  unfold mwuSteps
  rw [Nat.ceil_eq_zero]
  have hlog : Real.log Nn = 0 := by
    interval_cases Nn <;> simp
  rw [hlog]
  simp

lemma mwuSteps_pos {k Nn : ℕ} {e a : ℚ} (hk : 2 ≤ k) (hN : 2 ≤ Nn)
    (he : 0 < e) (ha : 0 < a) : 1 ≤ mwuSteps k Nn e a := by
  unfold mwuSteps
  rw [Nat.one_le_iff_ne_zero, ← Nat.pos_iff_ne_zero, Nat.ceil_pos]
  have hmu : (0 : ℝ) < ((muQ k : ℚ) : ℝ) := by
    have := muQ_ge_one hk
    have : (1 : ℝ) ≤ ((muQ k : ℚ) : ℝ) := by exact_mod_cast this
    linarith
  have hse : (0 : ℝ) < ((scaledEps e : ℚ) : ℝ) := by
    have := scaledEps_pos he
    exact_mod_cast this
  have hlog : (0 : ℝ) < Real.log Nn := by
    apply Real.log_pos
    have : (2 : ℕ) ≤ Nn := hN
    have h2 : (2 : ℝ) ≤ (Nn : ℝ) := by exact_mod_cast this
    linarith
  have ha' : (0 : ℝ) < (a : ℝ) := by exact_mod_cast ha
  positivity

lemma wsums_ge_self {C : Ctx N d} {r : ℚ} (h0 : 0 ≤ r) {h : Fin N → ℚ}
    (hh : ∀ j, 0 ≤ h j) (i : Fin N) : h i ≤ wsums C r h i := by
  unfold wsums
  have hsub : ({i} : Finset (Fin N)) ⊆
      Finset.univ.filter (fun j => near r (C.features i) (C.features j)) := by
    intro j hj
    rw [Finset.mem_singleton] at hj
    subst hj
    rw [Finset.mem_filter]
    exact ⟨Finset.mem_univ j, near_self h0 _⟩
  calc h i = ∑ j ∈ ({i} : Finset (Fin N)), h j := (Finset.sum_singleton _ _).symm
    _ ≤ _ := Finset.sum_le_sum_of_subset_of_nonneg hsub (fun j _ _ => hh j)

lemma sel_singleton {sel : (Fin N → ℚ) → Finset (Fin N) → ℕ → Finset (Fin N)}
    (hsel : SelSpec sel) (w : Fin N → ℚ) (x : Fin N) :
    sel w {x} 1 = {x} := by
  have h := hsel w {x} 1 (by simp)
  obtain ⟨a, ha⟩ := Finset.card_eq_one.mp h.2.1
  rw [ha]
  have : a ∈ ({x} : Finset (Fin N)) := h.1 (ha ▸ Finset.mem_singleton_self a)
  rw [Finset.mem_singleton] at this
  rw [this]

lemma mult_weight_upd_crash_iff {C : Ctx N d} {a : ℚ} (he : 0 < C.eps) (ha : 0 < a) :
    mult_weight_upd C a = .crash ↔ C.k ≤ 1 ∨ N ≤ 1 := by
  constructor
  · intro h
    by_contra hcon
    push_neg at hcon
    have hk : 2 ≤ C.k := by omega
    have hN : 2 ≤ N := by omega
    rw [mult_weight_upd, if_neg (by omega)] at h
    exact mwuGo_ne_crash (mwuSteps C.k N C.eps a) 0
      (by have := mwuSteps_pos hk hN he ha; omega) _ h
  · intro h
    rcases Nat.eq_zero_or_pos C.k with hk0 | hk1
    · rw [mult_weight_upd, if_pos hk0]
    · rw [mult_weight_upd, if_neg (by omega)]
      have hz : mwuSteps C.k N C.eps a = 0 := by
        rcases h with h | h
        · exact mwuSteps_eq_zero_of_k h (le_of_lt ha)
        · exact mwuSteps_eq_zero_of_N h
      rw [hz, mwuRun, mwuGo_zero, if_pos rfl]

/-- A three-point instance on a line (points 0, 1, 2) with one red point and
two blue points, quotas one of each, used as a concrete valid input. -/
def ctxTri : Ctx 3 1 where
  features := fun i => fun _ => (i.val : ℚ)
  colors := fun i => if i.val = 0 then 0 else 1
  kis := [(0, 1), (1, 1)]
  k := 2
  gamma := 1
  eps := 1 / 2
  sel := selBottom
  waits := fun _ => 9

/-- A two-point instance requesting both points (`k = N`), on which every
iteration of the solver accumulates `W >= 1`. -/
def ctxPair : Ctx 2 1 where
  features := fun i => fun _ => (i.val : ℚ)
  colors := fun i => i.val
  kis := [(0, 1), (1, 1)]
  k := 2
  gamma := 1
  eps := 1 / 2
  sel := selBottom
  waits := fun _ => 9

/-- A four-point instance on a line with two colors and `k = 3 < N`,
`eps = 4/5` and `gamma = 1`, at which the solver runs its full iteration
budget and returns feasible. -/
def ctxQuad : Ctx 4 1 where
  features := fun i => fun _ => (i.val : ℚ)
  colors := fun i => if i.val ≤ 1 then 0 else 1
  kis := [(0, 1), (1, 2)]
  k := 3
  gamma := 1
  eps := 4 / 5
  sel := selBottom
  waits := fun _ => 9

/-- A three-point instance with `k = 1`, on which the iteration budget
`T = (8 * (k - 1) / eps'^2) * log N` is zero. -/
def ctxK1 : Ctx 3 1 where
  features := fun i => fun _ => (i.val : ℚ)
  colors := fun _ => 0
  kis := [(0, 1)]
  k := 1
  gamma := 1
  eps := 1 / 2
  sel := selBottom
  waits := fun _ => 9

/-- C1: on a valid input (total quota `k >= 2`, quotas satisfiable, numpy
selection behavior, RNG draws in `[9, 28]`), `mult_weight_upd` returns `None`
(infeasible) exactly when some iteration in budget accumulates a selected
weight sum `W >= 1` (the check sits after the per-color selection loop and
before the `h` update, see `stepOnce`); otherwise the call returns a
fractional vector, and infeasibility is the only failure signal. -/
theorem c1_infeasible_iff {N d : ℕ} (C : Ctx N d) (a : ℚ)
    (hsel : SelSpec C.sel) (hkv : KisValid C) (hk : C.k = totalK C)
    (hk2 : 2 ≤ C.k) (he : 0 < C.eps) (ha : 0 < a) (hw : WaitsOK C) :
    (mult_weight_upd C a = Outcome.infeasible ↔
      ∃ t, t < mwuSteps C.k N C.eps a ∧ 1 ≤ roundWAt C t) ∧
    (mult_weight_upd C a ≠ Outcome.infeasible →
      ∃ Xo iters, mult_weight_upd C a = Outcome.feasible Xo iters) := by
  have hN : 2 ≤ N := le_trans hk2 (hk ▸ totalK_le_N hsel hkv)
  have hsp : 1 ≤ mwuSteps C.k N C.eps a := mwuSteps_pos hk2 hN he ha
  have hru : mult_weight_upd C a = mwuRun C (mwuSteps C.k N C.eps a) := by
    rw [mult_weight_upd, if_neg (by omega)]
  constructor
  · rw [hru, mwuRun, show initState C = iterState C 0 from rfl,
      mwuGo_infeasible_iff (hw 0).2 (mwuSteps C.k N C.eps a) 0]
    constructor
    · rintro ⟨u, _, hu2, hu3⟩
      exact ⟨u, by omega, hu3⟩
    · rintro ⟨t, ht, hW⟩
      exact ⟨t, by omega, by omega, hW⟩
  · intro hne
    have hnc : mult_weight_upd C a ≠ Outcome.crash := by
      rw [hru, mwuRun]
      exact mwuGo_ne_crash (mwuSteps C.k N C.eps a) 0 (by omega) _
    cases hres : mult_weight_upd C a with
    | crash => exact absurd hres hnc
    | infeasible => exact absurd hres hne
    | feasible Xo iters => exact ⟨Xo, iters, rfl⟩

attribute [local semireducible] Rat.add Rat.mul Rat.sub Rat.inv Rat.ofScientific in
/-- Witness for C1 at the concrete three-point instance. -/
theorem c1_witness :
    (mult_weight_upd ctxTri 1 = Outcome.infeasible ↔
      ∃ t, t < mwuSteps ctxTri.k 3 ctxTri.eps 1 ∧ 1 ≤ roundWAt ctxTri t) ∧
    (mult_weight_upd ctxTri 1 ≠ Outcome.infeasible →
      ∃ Xo iters, mult_weight_upd ctxTri 1 = Outcome.feasible Xo iters) :=
  c1_infeasible_iff ctxTri 1 selBottom_spec ⟨by decide, by decide⟩ (by decide)
    (by decide) (by decide) (by decide) (fun _ => ⟨le_refl 9, show (9:ℤ) ≤ 28 by norm_num⟩)

/-- C3: the stochastic early-stop check is never performed.  The wait counter
is decremented during the warmup of 100 iterations, reaches 0 at the initial
draw's value (at most 28) and then goes negative forever, so the guard
`t > 100 and nextSolutionCheckWait == 0` is false at every iteration, and
every feasible run exits only by exhausting its iteration budget. -/
theorem c3_check_never_runs {N d : ℕ} (C : Ctx N d) (hw : WaitsOK C) :
    (∀ t, ¬(100 < t ∧ (iterState C t).wait = 0)) ∧
    (∀ steps Xo iters, mwuRun C steps = Outcome.feasible Xo iters → iters = steps) := by
  constructor
  · exact fun t => noFire (hw 0).2 t
  · intro steps Xo iters h
    rw [mwuRun, show initState C = iterState C 0 from rfl] at h
    have := mwuGo_no_early (hw 0).2 steps 0 Xo iters h
    omega

/-- Witness for C3 at the concrete three-point instance, iteration 200. -/
theorem c3_witness : ¬(100 < 200 ∧ (iterState ctxTri 200).wait = 0) :=
  (c3_check_never_runs ctxTri (fun _ => ⟨le_refl 9, show (9:ℤ) ≤ 28 by norm_num⟩)).1 200

/-- C10: the solver's effective precondition is `k >= 2` and `N >= 2`:
with `k = 1` the iteration budget is zero because `mu = 0`, the loop body
never runs, and `X = X / (t + 1)` raises `NameError` (modelled as `crash`);
likewise for `N = 1` since `log 1 = 0`; with `k >= 2` and `N >= 2`
(and `eps > 0`, percent limit positive) the solver never crashes. -/
theorem c10_effective_precondition {N d : ℕ} (C : Ctx N d) (a : ℚ)
    (he : 0 < C.eps) (ha : 0 < a) :
    (C.k = 1 → mult_weight_upd C a = Outcome.crash) ∧
    (N = 1 → mult_weight_upd C a = Outcome.crash) ∧
    (2 ≤ C.k → 2 ≤ N → mult_weight_upd C a ≠ Outcome.crash) := by
  refine ⟨fun h1 => ?_, fun h1 => ?_, fun h1 h2 => ?_⟩
  · exact (mult_weight_upd_crash_iff he ha).mpr (Or.inl (by omega))
  · exact (mult_weight_upd_crash_iff he ha).mpr (Or.inr (by omega))
  · intro hc
    rcases (mult_weight_upd_crash_iff he ha).mp hc with h | h <;> omega

attribute [local semireducible] Rat.add Rat.mul Rat.sub Rat.inv Rat.ofScientific in
/-- Witness for C10: the concrete `k = 1` instance crashes. -/
theorem c10_witness : mult_weight_upd ctxK1 1 = Outcome.crash :=
  (c10_effective_precondition ctxK1 1 (by decide) (by decide)).1 (by decide)

attribute [local semireducible] Rat.add Rat.mul Rat.sub Rat.inv Rat.ofScientific in
/-- Counterexample to C2 as stated: at the valid input `ctxPair`
(`k = Σ K(c) = 2 = N`, quotas satisfiable, `gamma_upper = 1`,
`falloff_epsilon = 1/2`), every solver call made by the falloff driver is
infeasible, so the driver loop never terminates with a feasible `X`. -/
theorem c2_counterexample :
    ¬ ∃ n, (mult_weight_upd (atGamma ctxPair (gammaSeq ctxPair.gamma (1/2) n)) 1).isFeasible
      = true := by
  rintro ⟨n, hn⟩
  set Cn := atGamma ctxPair (gammaSeq ctxPair.gamma (1/2) n) with hCn
  have hg : 0 < Cn.gamma :=
    gammaSeq_pos (show (0:ℚ) < 1 by norm_num) (by norm_num) n
  have hsteps : 1 ≤ mwuSteps Cn.k 2 Cn.eps 1 :=
    mwuSteps_pos (le_refl 2) (le_refl 2) (show (0:ℚ) < 1/2 by norm_num)
      (show (0:ℚ) < 1 by norm_num)
  obtain ⟨f, hf⟩ : ∃ f, mwuSteps Cn.k 2 Cn.eps 1 = f + 1 :=
    ⟨mwuSteps Cn.k 2 Cn.eps 1 - 1, by omega⟩
  have h0 : ∀ i, (initState Cn).h i = 1 / (2:ℚ) := by
    intro i
    show (1 : ℚ) / ((2:ℕ):ℚ) = 1 / 2
    norm_num
  set w := wsums Cn (Cn.gamma / 2) (initState Cn).h with hwdef
  have hge : ∀ i, (initState Cn).h i ≤ w i := by
    intro i
    exact wsums_ge_self (by linarith) (fun j => by rw [h0 j]; norm_num) i
  have hc0 : colorIdx Cn 0 = ({0} : Finset (Fin 2)) :=
    show colorIdx ctxPair 0 = ({0} : Finset (Fin 2)) by decide
  have hc1 : colorIdx Cn 1 = ({1} : Finset (Fin 2)) :=
    show colorIdx ctxPair 1 = ({1} : Finset (Fin 2)) by decide
  have hrw : roundW Cn w =
      (∑ i ∈ Cn.sel w (colorIdx Cn 0) 1, w i) +
        ((∑ i ∈ Cn.sel w (colorIdx Cn 1) 1, w i) + 0) := rfl
  have hs0 : Cn.sel w (colorIdx Cn 0) 1 = ({0} : Finset (Fin 2)) := by
    rw [hc0]
    exact sel_singleton selBottom_spec w 0
  have hs1 : Cn.sel w (colorIdx Cn 1) 1 = ({1} : Finset (Fin 2)) := by
    rw [hc1]
    exact sel_singleton selBottom_spec w 1
  have hW : 1 ≤ roundW Cn w := by
    rw [hrw, hs0, hs1, Finset.sum_singleton, Finset.sum_singleton]
    have g0 := hge 0
    have g1 := hge 1
    rw [h0 0] at g0
    rw [h0 1] at g1
    linarith
  have hout : mult_weight_upd Cn 1 = Outcome.infeasible := by
    have hkne : ¬ Cn.k = 0 := by
      intro hcon
      have h2 : (2:ℕ) = 0 := hcon
      omega
    rw [mult_weight_upd, if_neg hkne, mwuRun, hf, mwuGo_succ, stepOnce_infeasible hW]
  rw [hout] at hn
  simp [Outcome.isFeasible] at hn

/-- C2 amended: the falloff driver terminates provided additionally the
feature vectors are pairwise distinct and `k < N` (as stated, with `k = N`
or coincident points, every call is infeasible and the loop never exits):
once `gamma` falls below the minimum pairwise distance every iteration has
`W < 1`, so the solver call at that gamma returns a feasible vector. -/
theorem c2_driver_terminates {N d : ℕ} (C : Ctx N d) (ef a : ℚ)
    (hsel : SelSpec C.sel) (hkv : KisValid C) (hk : C.k = totalK C)
    (hk2 : 2 ≤ C.k) (hkN : C.k < N) (hinj : Function.Injective C.features)
    (hg : 0 < C.gamma) (hef0 : 0 < ef) (hef1 : ef < 1)
    (he : 0 < C.eps) (ha : 0 < a) :
    ∃ n, (mult_weight_upd (atGamma C (gammaSeq C.gamma ef n)) a).isFeasible = true := by
  have hN2 : 2 ≤ N := by omega
  have hne : (Finset.univ.offDiag : Finset (Fin N × Fin N)).Nonempty := by
    refine ⟨(⟨0, by omega⟩, ⟨1, by omega⟩), ?_⟩
    rw [Finset.mem_offDiag]
    refine ⟨Finset.mem_univ _, Finset.mem_univ _, ?_⟩
    intro hc
    have := congrArg Fin.val hc
    simp at this
  obtain ⟨pr, hpr, hprmin⟩ := Finset.exists_min_image Finset.univ.offDiag
    (fun p => dist2 (C.features p.1) (C.features p.2)) hne
  set δ := dist2 (C.features pr.1) (C.features pr.2) with hδ
  have hδpos : 0 < δ := by
    apply dist2_pos
    intro hc
    rw [Finset.mem_offDiag] at hpr
    exact hpr.2.2 (hinj hc)
  obtain ⟨n, hn⟩ := exists_gammaSeq_lt (c := 2 * min 1 δ) hg hef0 hef1 (by positivity)
  refine ⟨n, ?_⟩
  set g := gammaSeq C.gamma ef n with hgn
  have hgpos : 0 < g := gammaSeq_pos hg hef1 n
  set Cn := atGamma C g with hCn
  have hfar : ∀ i j : Fin N, i ≠ j → ¬ near (g / 2) (C.features i) (C.features j) := by
    rintro i j hij ⟨hr, hd⟩
    have hδle : δ ≤ dist2 (C.features i) (C.features j) := by
      have hmemij : (i, j) ∈ Finset.univ.offDiag := by
        rw [Finset.mem_offDiag]
        exact ⟨Finset.mem_univ _, Finset.mem_univ _, hij⟩
      exact hprmin (i, j) hmemij
    have hhalf : g / 2 < min 1 δ := by linarith
    have hsq : (g / 2) ^ 2 < δ := by
      rcases le_total (1 : ℚ) δ with hc | hc
      · have h1 : g / 2 < 1 := lt_of_lt_of_le hhalf (min_le_left _ _)
        nlinarith
      · have h1 : g / 2 < δ := lt_of_lt_of_le hhalf (min_le_right _ _)
        nlinarith
    linarith
  have hWlt : ∀ t, roundWAt Cn t < 1 := by
    intro t
    have hht := iterState_h (C := Cn) (by omega) hk2 he t
    have hr0 : 0 ≤ Cn.gamma / 2 := by
      show (0:ℚ) ≤ g / 2
      linarith
    have hfar2 : ∀ i j : Fin N, i ≠ j →
        ¬ near (Cn.gamma / 2) (Cn.features i) (Cn.features j) := hfar
    rw [roundWAt, wsums_eq_of_far hr0 hfar2]
    exact roundW_lt_one hsel hkv (show totalK C < N from hk ▸ hkN) hht.1 hht.2
  have hsteps : 1 ≤ mwuSteps Cn.k N Cn.eps a := mwuSteps_pos hk2 hN2 he ha
  show (mult_weight_upd Cn a).isFeasible = true
  rw [mult_weight_upd, if_neg (show ¬ Cn.k = 0 from by show ¬ C.k = 0; omega), mwuRun,
    show initState Cn = iterState Cn 0 from rfl]
  exact mwuGo_feasible_exists _ 0 (fun u _ _ => hWlt u) (by omega)

attribute [local semireducible] Rat.add Rat.mul Rat.sub Rat.inv Rat.ofScientific in
/-- Witness for the amended C2 at the concrete three-point instance. -/
theorem c2_witness :
    ∃ n, (mult_weight_upd (atGamma ctxTri (gammaSeq ctxTri.gamma (1/2) n)) 1).isFeasible
      = true :=
  c2_driver_terminates ctxTri (1/2) 1 selBottom_spec ⟨by decide, by decide⟩
    (by decide) (by decide) (by decide)
    (fun i j hij => by
      have h0 : (i.val : ℚ) = (j.val : ℚ) := congrFun hij 0
      exact Fin.ext (by exact_mod_cast h0))
    (by decide) (by decide) (by decide) (by decide) (by decide)

/-- C4: on feasible termination (early stop or full budget) the solver
returns `X / (t + 1)` with `t + 1` the number of iterations actually
executed (`getIters`), and every entry of the returned vector lies in
`[0, 1]`. -/
theorem c4_fractional_output {N d : ℕ} (C : Ctx N d) (steps : ℕ)
    (hsel : SelSpec C.sel) (hkv : KisValid C)
    (hfeas : (mwuRun C steps).isFeasible = true) :
    1 ≤ (mwuRun C steps).getIters ∧ (mwuRun C steps).getIters ≤ steps ∧
    (mwuRun C steps).getX =
      (fun i => (iterState C ((mwuRun C steps).getIters)).X i /
        ((mwuRun C steps).getIters : ℚ)) ∧
    ∀ i, 0 ≤ (mwuRun C steps).getX i ∧ (mwuRun C steps).getX i ≤ 1 := by
  cases hres : mwuRun C steps with
  | crash =>
    rw [hres] at hfeas
    exact absurd hfeas (by simp [Outcome.isFeasible])
  | infeasible =>
    rw [hres] at hfeas
    exact absurd hfeas (by simp [Outcome.isFeasible])
  | feasible Xo it =>
    have hres2 := hres
    rw [mwuRun, show initState C = iterState C 0 from rfl] at hres2
    obtain ⟨_h0, h1, h2, h3⟩ := mwuGo_feasible_shape steps 0 Xo it hres2
    simp only [Outcome.getIters, Outcome.getX]
    refine ⟨h1, by omega, h3, ?_⟩
    intro i
    rw [h3]
    have hXb := iterState_X_bounds hsel hkv it i
    have hit : (0 : ℚ) < (it : ℚ) := by exact_mod_cast h1
    constructor
    · exact div_nonneg hXb.1 (le_of_lt hit)
    · rw [div_le_one hit]
      calc (iterState C it).X i ≤ (it : ℚ) := hXb.2

attribute [local semireducible] Rat.add Rat.mul Rat.sub Rat.inv Rat.ofScientific in
/-- Witness for C4 at the concrete three-point instance with one iteration. -/
theorem c4_witness :
    0 ≤ (mwuRun ctxTri 1).getX 0 ∧ (mwuRun ctxTri 1).getX 0 ≤ 1 :=
  (c4_fractional_output ctxTri 1 selBottom_spec ⟨by decide, by decide⟩
    (by decide)).2.2.2 0

/-- C5: in every iteration, for every color with a satisfiable positive
quota, the per-color selection picks exactly `K(c)` distinct indices from
the color class `I_c`; `X` gains exactly 1 at each index selected this
iteration and is unchanged elsewhere, hence is componentwise
non-decreasing. -/
theorem c5_per_color_selection {N d : ℕ} (C : Ctx N d)
    (hsel : SelSpec C.sel) (hkv : KisValid C) (t : ℕ) :
    (∀ p ∈ C.kis,
      (C.sel (wsums C (C.gamma / 2) (iterState C t).h) (colorIdx C p.1) p.2).card = p.2 ∧
      C.sel (wsums C (C.gamma / 2) (iterState C t).h) (colorIdx C p.1) p.2 ⊆
        colorIdx C p.1) ∧
    (∀ i, (iterState C (t + 1)).X i = (iterState C t).X i +
      if i ∈ roundSel C (wsums C (C.gamma / 2) (iterState C t).h) then 1 else 0) ∧
    (∀ i, (iterState C t).X i ≤ (iterState C (t + 1)).X i) := by
  refine ⟨?_, fun i => iterState_X_succ hsel hkv t i, ?_⟩
  · intro p hp
    have h := hsel (wsums C (C.gamma / 2) (iterState C t).h) (colorIdx C p.1) p.2
      ((hkv.2 p hp).2)
    exact ⟨h.2.1, h.1⟩
  · intro i
    rw [iterState_X_succ hsel hkv t i]
    by_cases hmem : i ∈ roundSel C (wsums C (C.gamma / 2) (iterState C t).h) <;>
      simp [hmem]

attribute [local semireducible] Rat.add Rat.mul Rat.sub Rat.inv Rat.ofScientific in
/-- Witness for C5 at the concrete three-point instance, iteration 0 and
color 0. -/
theorem c5_witness :
    (ctxTri.sel (wsums ctxTri (ctxTri.gamma / 2) (iterState ctxTri 0).h)
      (colorIdx ctxTri 0) 1).card = 1 ∧
    (iterState ctxTri 0).X 0 ≤ (iterState ctxTri 1).X 0 :=
  ⟨((c5_per_color_selection ctxTri selBottom_spec ⟨by decide, by decide⟩ 0).1
      (0, 1) (by decide)).1,
    (c5_per_color_selection ctxTri selBottom_spec ⟨by decide, by decide⟩ 0).2.2 0⟩

attribute [local semireducible] Rat.add Rat.mul Rat.sub Rat.inv Rat.ofScientific in
/-- Counterexample to C6 as stated: numpy's `argpartition` guarantees only a
valid bottom-K set (`SelSpec`); `selAltTie`, which breaks ties by descending
index, also satisfies that contract yet differs from the ascending-index
selection `selBottom` on a concrete tied weight vector, so the selected set
is not determined to be the first `K(c)` indices in (value, index) order. -/
theorem c6_counterexample :
    SelSpec (@selAltTie 2) ∧
    selAltTie (fun _ => (0 : ℚ)) (Finset.univ : Finset (Fin 2)) 1 ≠
      selBottom (fun _ => (0 : ℚ)) (Finset.univ : Finset (Fin 2)) 1 :=
  ⟨selAltTie_spec, by decide⟩

/-- C6 amended: any selection satisfying the `argpartition` contract agrees
with the ascending-index bottom-K selection whenever no tie of `w_sum`
values straddles the selection boundary; when such a tie exists the choice
among tied indices is unspecified. -/
theorem c6_no_tie_unique {N : ℕ}
    (sel : (Fin N → ℚ) → Finset (Fin N) → ℕ → Finset (Fin N))
    (w : Fin N → ℚ) (I : Finset (Fin N)) (m : ℕ)
    (hsel : SelSpec sel) (hm : m ≤ I.card)
    (hgap : ∀ i ∈ selBottom w I m, ∀ j ∈ I, j ∉ selBottom w I m → w i < w j) :
    sel w I m = selBottom w I m := by
  have hB := selBottom_spec w I m hm
  have hT := hsel w I m hm
  apply Finset.eq_of_subset_of_card_le
  · intro x hxT
    by_contra hxB
    have hxI : x ∈ I := hT.1 hxT
    have hcards : (selBottom w I m \ sel w I m).card =
        (sel w I m \ selBottom w I m).card :=
      Finset.card_sdiff_comm (by rw [hB.2.1, hT.2.1])
    have hTB : x ∈ sel w I m \ selBottom w I m := Finset.mem_sdiff.mpr ⟨hxT, hxB⟩
    have hpos : 0 < (selBottom w I m \ sel w I m).card := by
      rw [hcards]
      exact Finset.card_pos.mpr ⟨x, hTB⟩
    obtain ⟨y, hy⟩ := Finset.card_pos.mp hpos
    rw [Finset.mem_sdiff] at hy
    have h1 : w x ≤ w y := hT.2.2 x hxT y (hB.1 hy.1) hy.2
    have h2 : w y < w x := hgap y hy.1 x hxI hxB
    linarith
  · rw [hB.2.1, hT.2.1]

attribute [local semireducible] Rat.add Rat.mul Rat.sub Rat.inv Rat.ofScientific in
/-- Witness for the amended C6: with distinct weights the descending-tie
selection agrees with the ascending one. -/
theorem c6_witness :
    selAltTie (fun i => (i.val : ℚ)) (Finset.univ : Finset (Fin 2)) 1 =
      selBottom (fun i => (i.val : ℚ)) (Finset.univ : Finset (Fin 2)) 1 :=
  c6_no_tie_unique selAltTie (fun i => (i.val : ℚ)) Finset.univ 1
    selAltTie_spec (by decide) (by decide)

/-- C7: the weight vector is initialized to the uniform `1/N`, and at the
start of every iteration (after the multiplicative update and the
renormalization of the previous one) every entry is nonnegative and the
entries sum to 1. -/
theorem c7_h_invariant {N d : ℕ} (C : Ctx N d) (hN : 1 ≤ N) (hk : 2 ≤ C.k)
    (he0 : 0 < C.eps) (_he1 : C.eps < 1) :
    (initState C).h = (fun _ => 1 / (N : ℚ)) ∧
    ∀ t, (∀ i, 0 ≤ (iterState C t).h i) ∧ (∑ i, (iterState C t).h i) = 1 :=
  ⟨rfl, fun t =>
    ⟨fun i => le_of_lt ((iterState_h hN hk he0 t).1 i), (iterState_h hN hk he0 t).2⟩⟩

attribute [local semireducible] Rat.add Rat.mul Rat.sub Rat.inv Rat.ofScientific in
/-- Witness for C7 at the concrete three-point instance after one
iteration. -/
theorem c7_witness : (∑ i, (iterState ctxTri 1).h i) = 1 :=
  ((c7_h_invariant ctxTri (by decide) (by decide) (by decide) (by decide)).2 1).2

/-- C8: each falloff step multiplies gamma by `(1 - falloff_epsilon)`, so
the sequence of gamma values passed to the solver is strictly decreasing and
no gamma value is ever attempted twice. -/
theorem c8_gamma_sequence {g0 ef : ℚ} (hg : 0 < g0) (hef0 : 0 < ef)
    (hef1 : ef < 1) :
    (∀ n, gammaSeq g0 ef (n + 1) = gammaSeq g0 ef n * (1 - ef)) ∧
    (∀ n m, n < m → gammaSeq g0 ef m < gammaSeq g0 ef n) ∧
    (∀ n m, n ≠ m → gammaSeq g0 ef n ≠ gammaSeq g0 ef m) := by
  refine ⟨fun n => rfl, gammaSeq_anti hg hef0 hef1, ?_⟩
  intro n m hnm
  rcases Nat.lt_or_ge n m with h | h
  · exact ne_of_gt (gammaSeq_anti hg hef0 hef1 n m h)
  · have hmn : m < n := by omega
    exact ne_of_lt (gammaSeq_anti hg hef0 hef1 m n hmn)

/-- Witness for C8 with `gamma_upper = 1`, `falloff_epsilon = 1/2`. -/
theorem c8_witness :
    gammaSeq 1 (1/2) 1 < gammaSeq 1 (1/2) 0 ∧
    gammaSeq 1 (1/2) 0 ≠ gammaSeq 1 (1/2) 1 :=
  ⟨(c8_gamma_sequence (by norm_num) (by norm_num) (by norm_num)).2.1 0 1 (by omega),
    (c8_gamma_sequence (by norm_num) (by norm_num) (by norm_num)).2.2 0 1 (by omega)⟩

lemma mwuSteps_quad_full : mwuSteps 3 4 (4/5) 1 = 50 := by
  unfold mwuSteps
  have hse : ((scaledEps (4/5) : ℚ) : ℝ) = 2/3 := by
    rw [show (scaledEps (4/5) : ℚ) = 2/3 from by norm_num [scaledEps]]
    norm_num
  have hmu : ((muQ 3 : ℚ) : ℝ) = 2 := by
    rw [show (muQ 3 : ℚ) = 2 from by norm_num [muQ]]
    norm_num
  have hlog4 : Real.log ((4:ℕ) : ℝ) = 2 * Real.log 2 := by
    rw [show ((4:ℕ):ℝ) = 2^2 by norm_num, Real.log_pow]
    push_cast
    ring
  have h1 : ((1:ℚ) : ℝ) = 1 := by norm_num
  rw [hse, hmu, hlog4, h1]
  have hexp : (8:ℝ) * 2 / (2/3)^2 * (2 * Real.log 2) * 1 = 72 * Real.log 2 := by ring
  rw [hexp, Nat.ceil_eq_iff (by norm_num)]
  constructor
  · have h := Real.log_two_gt_d9
    push_cast
    linarith
  · have h := Real.log_two_lt_d9
    push_cast
    linarith

lemma mwuSteps_quad_scaled : mwuSteps 3 4 (4/5) (11/20) = 28 := by
  unfold mwuSteps
  have hse : ((scaledEps (4/5) : ℚ) : ℝ) = 2/3 := by
    rw [show (scaledEps (4/5) : ℚ) = 2/3 from by norm_num [scaledEps]]
    norm_num
  have hmu : ((muQ 3 : ℚ) : ℝ) = 2 := by
    rw [show (muQ 3 : ℚ) = 2 from by norm_num [muQ]]
    norm_num
  have hlog4 : Real.log ((4:ℕ) : ℝ) = 2 * Real.log 2 := by
    rw [show ((4:ℕ):ℝ) = 2^2 by norm_num, Real.log_pow]
    push_cast
    ring
  have ha : ((11/20 : ℚ) : ℝ) = 11/20 := by norm_num
  rw [hse, hmu, hlog4, ha]
  have hexp : (8:ℝ) * 2 / (2/3)^2 * (2 * Real.log 2) * (11/20) = (198/5) * Real.log 2 := by
    ring
  rw [hexp, Nat.ceil_eq_iff (by norm_num)]
  constructor
  · have h := Real.log_two_gt_d9
    push_cast
    linarith
  · have h := Real.log_two_lt_d9
    push_cast
    linarith

/-- C9 amended: the MWU loop executes at most
`ceil(((8 * mu / eps'^2) * ln N) * alpha)` iterations — the ceiling is taken
after the `percent_theoretical_limit` scaling, not before (`mwuSteps`). -/
theorem c9_iter_budget {N d : ℕ} (C : Ctx N d) (a : ℚ) :
    (mult_weight_upd C a).getIters ≤ mwuSteps C.k N C.eps a := by
  rw [mult_weight_upd]
  by_cases hk : C.k = 0
  · rw [if_pos hk]
    simp [Outcome.getIters]
  · rw [if_neg hk, mwuRun]
    cases hres : mwuGo C (mwuSteps C.k N C.eps a) 0 (initState C) with
    | crash => simp [Outcome.getIters]
    | infeasible => simp [Outcome.getIters]
    | feasible Xo it =>
      have h := mwuGo_iters_le (mwuSteps C.k N C.eps a) 0 (initState C) Xo it hres
      simp only [Outcome.getIters]
      omega

attribute [local semireducible] Rat.add Rat.mul Rat.sub Rat.inv Rat.ofScientific in
/-- Counterexample to C9 as stated: at the four-point instance with `k = 3`,
`eps = 4/5` and `alpha = 11/20`, the loop executes
`ceil((36 * ln 4) * alpha) = 28` iterations, which exceeds the claim's bound
`alpha * ceil(36 * ln 4) = (11/20) * 50 = 27.5`; so the ceiling is taken
after the scaling, not before. -/
theorem c9_counterexample :
    (mult_weight_upd ctxQuad (11/20)).getIters = 28 ∧
    (11/20 : ℝ) * (mwuSteps ctxQuad.k 4 ctxQuad.eps 1 : ℝ) < 28 := by
  constructor
  · have hfar : ∀ i j : Fin 4, i ≠ j →
        ¬ near (ctxQuad.gamma / 2) (ctxQuad.features i) (ctxQuad.features j) := by
      decide
    have hWlt : ∀ t, roundWAt ctxQuad t < 1 := by
      intro t
      have hht := iterState_h (C := ctxQuad) (by norm_num) (by decide) (by decide) t
      rw [roundWAt, wsums_eq_of_far (by decide) hfar]
      exact roundW_lt_one selBottom_spec ⟨by decide, by decide⟩ (by decide) hht.1 hht.2
    have h28 : mwuSteps ctxQuad.k 4 ctxQuad.eps (11/20) = 28 := mwuSteps_quad_scaled
    have hrun := mwuGo_complete (C := ctxQuad) (by decide)
      (mwuSteps ctxQuad.k 4 ctxQuad.eps (11/20)) 0 (fun u _ _ => hWlt u)
      (by rw [h28]; omega)
    rw [mult_weight_upd, if_neg (by decide), mwuRun,
      show initState ctxQuad = iterState ctxQuad 0 from rfl, hrun]
    simp only [Outcome.getIters]
    rw [h28]
  · rw [show mwuSteps ctxQuad.k 4 ctxQuad.eps 1 = 50 from mwuSteps_quad_full]
    norm_num

end FDC
